import Mathlib

/-!
Verification of the PaperMind text-highlighting engine.

This file gives a shallow embedding of the browser reading-assistant's
core logic (src/static/js/textHighlight.js — the coordinate-based
iteration, src/static/js/reading_chat.js, src/static/js/questions.js,
src/static/js/session_chat.js) and proves or refutes the testable
properties stated about it.

Strings are modelled as lists of Unicode code points (`List Nat`), so
JavaScript string primitives (`replace`, `trim`, `toLowerCase`,
`indexOf`, `substring`, `split`) become executable list functions.
Floating-point page coordinates are modelled as integers and audio
durations as rationals; the properties under study are order-theoretic
and arithmetic, not about rounding.
-/

/-- Code points of a string literal, for readable concrete inputs. -/
def strNats (s : String) : List Nat := s.data.map Char.toNat

/-- JavaScript `\s` for the characters that occur here: space, tab, LF, CR. -/
def isWsN (c : Nat) : Bool := c == 32 || c == 9 || c == 10 || c == 13

/-- The quote characters stripped by `normalizeForMatch`: `"` and `'`. -/
def isQuoteN (c : Nat) : Bool := c == 34 || c == 39

/-- `String.prototype.toLowerCase` on one code point (ASCII range, which is
all the normalizer's other steps distinguish). -/
def lowerN (c : Nat) : Nat := if 65 ≤ c ∧ c ≤ 90 then c + 32 else c

/-- `text.replace(/\*+/g, '')`: removing every run of `*` removes every `*`. -/
def removeStars (l : List Nat) : List Nat := l.filter (fun c => c != 42)

/-- `text.replace(/^["']+|["']+$/g, '')`: strip the leading and the trailing
run of quote characters. -/
def stripQuotes (l : List Nat) : List Nat :=
  (l.dropWhile isQuoteN).rdropWhile isQuoteN

/-- `text.replace(/\.{2,}$/g, '')`: drop the trailing run of periods when it
has length at least two, otherwise leave the string unchanged. -/
def dropTrailDots (l : List Nat) : List Nat :=
  if 2 ≤ (l.rtakeWhile (fun c => c == 46)).length then
    l.rdropWhile (fun c => c == 46)
  else l

/-- Worker for `collapseWs`; the flag records whether the previously read
character was whitespace (so the current run has already emitted its space). -/
def collapseWsAux : Bool → List Nat → List Nat
  | _, [] => []
  | prevWs, c :: rest =>
    if isWsN c then
      if prevWs then collapseWsAux true rest
      else 32 :: collapseWsAux true rest
    else c :: collapseWsAux false rest

/-- `text.replace(/\s+/g, ' ')`: every maximal run of whitespace becomes one
space. -/
def collapseWs (l : List Nat) : List Nat := collapseWsAux false l

/-- `String.prototype.trim`: drop leading and trailing whitespace. -/
def trimN (l : List Nat) : List Nat :=
  (l.dropWhile isWsN).rdropWhile isWsN

/-- `normalizeForMatch` (src/static/js/textHighlight.js:368-376): strip `*`
runs, strip boundary quotes, strip a trailing ellipsis, collapse whitespace,
lowercase, trim — applied in exactly that order. -/
def normalizeForMatch (text : List Nat) : List Nat :=
  trimN (List.map lowerN (collapseWs (dropTrailDots (stripQuotes (removeStars text)))))

example : normalizeForMatch (strNats "  Hello,   *World*.. ") = strNats "hello, world.." := by decide
example : normalizeForMatch (strNats "  Hello,   *World*..") = strNats "hello, world" := by decide
example : normalizeForMatch [34, 113, 117, 111, 116, 101, 100, 34] = strNats "quoted" := by decide
example : normalizeForMatch [32, 39, 97] = [39, 97] := by decide

/-! ### Invariants of the normalizer's output, and (conditional) idempotence -/

/-- No `*` survives the normalizer: predicate for the first stage. -/
def StarFree (l : List Nat) : Prop := ∀ c ∈ l, c ≠ 42

theorem lowerN_idem (c : Nat) : lowerN (lowerN c) = lowerN c := by
  unfold lowerN
  split_ifs with h1 h2 <;> omega

theorem isWsN_iff (c : Nat) : isWsN c = true ↔ (c = 32 ∨ c = 9 ∨ c = 10 ∨ c = 13) := by
  simp [isWsN]
  tauto

theorem isWsN_lowerN (c : Nat) : isWsN (lowerN c) = isWsN c := by
  rw [Bool.eq_iff_iff, isWsN_iff, isWsN_iff]
  unfold lowerN
  split_ifs with h <;> omega


theorem trimN_within (l : List Nat) : trimN l <:+: l := by
  unfold trimN
  obtain ⟨u, hu⟩ := List.rdropWhile_prefix isWsN (l.dropWhile isWsN)
  obtain ⟨v, hv⟩ := List.dropWhile_suffix (l := l) isWsN
  exact ⟨v, u, by rw [List.append_assoc, hu, hv]⟩

theorem stripQuotes_within (l : List Nat) : stripQuotes l <:+: l := by
  unfold stripQuotes
  obtain ⟨u, hu⟩ := List.rdropWhile_prefix isQuoteN (l.dropWhile isQuoteN)
  obtain ⟨v, hv⟩ := List.dropWhile_suffix (l := l) isQuoteN
  exact ⟨v, u, by rw [List.append_assoc, hu, hv]⟩

theorem dropTrailDots_subset (l : List Nat) : dropTrailDots l ⊆ l := by
  unfold dropTrailDots
  split_ifs with h
  · exact List.IsPrefix.subset ( List.rdropWhile_prefix _ l)
  · exact fun _ hc => hc

theorem collapseWsAux_mem {c : Nat} {l : List Nat} {b : Bool}
    (h : c ∈ collapseWsAux b l) : c = 32 ∨ c ∈ l := by
  induction l generalizing b with
  | nil => simp [collapseWsAux] at h
  | cons d rest ih =>
    unfold collapseWsAux at h
    split_ifs at h with hws hb
    · rcases ih h with h32 | hm
      · exact Or.inl h32
      · exact Or.inr (List.mem_cons_of_mem _ hm)
    · rcases List.mem_cons.mp h with h32 | htail
      · exact Or.inl h32
      · rcases ih htail with h32 | hm
        · exact Or.inl h32
        · exact Or.inr (List.mem_cons_of_mem _ hm)
    · rcases List.mem_cons.mp h with hc | htail
      · exact Or.inr (hc ▸ List.mem_cons_self _ _)
      · rcases ih htail with h32 | hm
        · exact Or.inl h32
        · exact Or.inr (List.mem_cons_of_mem _ hm)

theorem starFree_normalizeForMatch (x : List Nat) : StarFree (normalizeForMatch x) := by
  intro c hc
  unfold normalizeForMatch at hc
  have hc2 := (trimN_within _).subset hc
  rw [List.mem_map] at hc2
  obtain ⟨c', hc', rfl⟩ := hc2
  rcases collapseWsAux_mem hc' with h32 | hmem
  · subst h32; decide
  · have hmem2 := dropTrailDots_subset _ hmem
    have hmem3 := (stripQuotes_within _).subset hmem2
    rw [removeStars, List.mem_filter] at hmem3
    have : c' ≠ 42 := by simpa using hmem3.2
    unfold lowerN
    split_ifs with h <;> omega

/-- Adjacency relation: a whitespace character is never followed by another
whitespace character. -/
def NoWsPair (l : List Nat) : Prop :=
  List.Chain' (fun a b => isWsN a = true → isWsN b = false) l

theorem collapseWsAux_only32 {c : Nat} {l : List Nat} {b : Bool}
    (h : c ∈ collapseWsAux b l) (hws : isWsN c = true) : c = 32 := by
  induction l generalizing b with
  | nil => simp [collapseWsAux] at h
  | cons d rest ih =>
    by_cases h1 : isWsN d = true
    · cases b with
      | true =>
        rw [show collapseWsAux true (d :: rest) = collapseWsAux true rest by
          simp [collapseWsAux, h1]] at h
        exact ih h
      | false =>
        rw [show collapseWsAux false (d :: rest) = 32 :: collapseWsAux true rest by
          simp [collapseWsAux, h1]] at h
        rcases List.mem_cons.mp h with h32 | htail
        · exact h32
        · exact ih htail
    · rw [show collapseWsAux b (d :: rest) = d :: collapseWsAux false rest by
        simp [collapseWsAux, h1]] at h
      rcases List.mem_cons.mp h with hc | htail
      · exact absurd (hc ▸ hws) h1
      · exact ih htail

theorem collapseWsAux_head_true {l : List Nat} {h : Nat}
    (hh : (collapseWsAux true l).head? = some h) : isWsN h = false := by
  induction l with
  | nil => simp [collapseWsAux] at hh
  | cons d rest ih =>
    by_cases h1 : isWsN d = true
    · rw [show collapseWsAux true (d :: rest) = collapseWsAux true rest by
        simp [collapseWsAux, h1]] at hh
      exact ih hh
    · rw [show collapseWsAux true (d :: rest) = d :: collapseWsAux false rest by
        simp [collapseWsAux, h1], List.head?_cons, Option.some.injEq] at hh
      subst hh
      simpa using h1

theorem collapseWsAux_chain (l : List Nat) : ∀ b, NoWsPair (collapseWsAux b l) := by
  induction l with
  | nil => intro b; simp [collapseWsAux, NoWsPair]
  | cons d rest ih =>
    intro b
    by_cases h1 : isWsN d = true
    · cases b with
      | true =>
        rw [show collapseWsAux true (d :: rest) = collapseWsAux true rest by
          simp [collapseWsAux, h1]]
        exact ih true
      | false =>
        rw [show collapseWsAux false (d :: rest) = 32 :: collapseWsAux true rest by
          simp [collapseWsAux, h1], NoWsPair, List.chain'_cons']
        exact ⟨fun y hy _ => collapseWsAux_head_true hy, ih true⟩
    · rw [show collapseWsAux b (d :: rest) = d :: collapseWsAux false rest by
        simp [collapseWsAux, h1], NoWsPair, List.chain'_cons']
      exact ⟨fun y hy hws => absurd hws h1, ih false⟩

theorem noWsPair_normalizeForMatch (x : List Nat) : NoWsPair (normalizeForMatch x) := by
  unfold normalizeForMatch
  have h1 : NoWsPair (List.map lowerN (collapseWs (dropTrailDots (stripQuotes (removeStars x))))) := by
    rw [NoWsPair, List.chain'_map]
    refine (collapseWsAux_chain _ false).imp fun a b hab => ?_
    rw [isWsN_lowerN, isWsN_lowerN]
    exact hab
  exact List.Chain'.infix h1 (trimN_within _)

theorem only32_normalizeForMatch {x : List Nat} {c : Nat}
    (hc : c ∈ normalizeForMatch x) (hws : isWsN c = true) : c = 32 := by
  unfold normalizeForMatch at hc
  have hc2 := (trimN_within _).subset hc
  rw [List.mem_map] at hc2
  obtain ⟨c', hc', rfl⟩ := hc2
  rw [isWsN_lowerN] at hws
  have h32 := collapseWsAux_only32 hc' hws
  subst h32
  rfl

theorem lowerFixed_normalizeForMatch {x : List Nat} {c : Nat}
    (hc : c ∈ normalizeForMatch x) : lowerN c = c := by
  unfold normalizeForMatch at hc
  have hc2 := (trimN_within _).subset hc
  rw [List.mem_map] at hc2
  obtain ⟨c', _, rfl⟩ := hc2
  exact lowerN_idem c'

theorem mapFix {f : Nat → Nat} {l : List Nat} (h : ∀ c ∈ l, f c = c) :
    List.map f l = l := by
  induction l with
  | nil => rfl
  | cons d rest ih =>
    rw [List.map_cons, h d (List.mem_cons_self _ _),
      ih fun c hc => h c (List.mem_cons_of_mem _ hc)]

theorem collapseWsAux_fixed {l : List Nat}
    (h32 : ∀ c ∈ l, isWsN c = true → c = 32) (hch : NoWsPair l) :
    ∀ b, (b = true → ∀ h, l.head? = some h → isWsN h = false) →
      collapseWsAux b l = l := by
  induction l with
  | nil => intro b _; rfl
  | cons d rest ih =>
    intro b hb
    have hrest32 : ∀ c ∈ rest, isWsN c = true → c = 32 :=
      fun c hc => h32 c (List.mem_cons_of_mem _ hc)
    have hchrest : NoWsPair rest := (List.chain'_cons'.mp hch).2
    by_cases h1 : isWsN d = true
    · cases b with
      | true => exact absurd ((hb rfl d) (List.head?_cons)) (by simp [h1])
      | false =>
        rw [show collapseWsAux false (d :: rest) = 32 :: collapseWsAux true rest by
          simp [collapseWsAux, h1]]
        have hd32 : d = 32 := h32 d (List.mem_cons_self _ _) h1
        rw [ih hrest32 hchrest true fun _ h hh => ?_, hd32]
        have := (List.chain'_cons'.mp hch).1 h hh
        simpa using this h1
    · rw [show collapseWsAux b (d :: rest) = d :: collapseWsAux false rest by
        simp [collapseWsAux, h1]]
      rw [ih hrest32 hchrest false (by simp)]

theorem dropWhile_eq_self_of_head {p : Nat → Bool} {l : List Nat}
    (h : ∀ c ∈ l.head?, p c = false) : l.dropWhile p = l := by
  rw [List.dropWhile_eq_self_iff]
  intro hl
  have hm : l[0] ∈ l.head? := by
    rw [List.head?_eq_getElem?, List.getElem?_eq_getElem hl]
    rfl
  simpa [List.get_eq_getElem] using h _ hm

theorem head_dropWhile_false {p : Nat → Bool} {l : List Nat} :
    ∀ c ∈ (l.dropWhile p).head?, p c = false := by
  intro c hc
  have h := List.head?_dropWhile_not p l
  rw [Option.mem_def] at hc
  rw [hc] at h
  exact h

theorem rdropWhile_eq_self_of_getLast {p : Nat → Bool} {l : List Nat}
    (h : ∀ c ∈ l.getLast?, p c = false) : l.rdropWhile p = l := by
  rw [List.rdropWhile_eq_self_iff]
  intro hl
  have : l.getLast? = some (l.getLast hl) := List.getLast?_eq_getLast l hl
  simp [h _ (by rw [this]; rfl)]

theorem trimN_idem (l : List Nat) : trimN (trimN l) = trimN l := by
  unfold trimN
  have hstep : ((l.dropWhile isWsN).rdropWhile isWsN).dropWhile isWsN
      = (l.dropWhile isWsN).rdropWhile isWsN := by
    apply dropWhile_eq_self_of_head
    intro c hc
    obtain ⟨t, ht⟩ := List.rdropWhile_prefix isWsN (l.dropWhile isWsN)
    cases hy : (l.dropWhile isWsN).rdropWhile isWsN with
    | nil => rw [hy] at hc; simp at hc
    | cons a ys =>
      rw [hy, List.head?_cons, Option.mem_def, Option.some.injEq] at hc
      subst hc
      refine head_dropWhile_false (l := l) _ ?_
      rw [← ht, hy, List.cons_append, List.head?_cons]
      rfl
  rw [hstep, List.rdropWhile_idempotent]

/-- Claim C7 (amended): normalization is idempotent on every input whose
normalized form does not begin or end with a quote character and does not end
with a run of two or more periods.  (In general a second application can strip
further: trimming can expose boundary quotes or a trailing ellipsis that the
quote/ellipsis stages of the first pass ran too early to see.) -/
theorem normalizeForMatch_idem_of_boundary (x : List Nat)
    (hq1 : ∀ c ∈ (normalizeForMatch x).head?, isQuoteN c = false)
    (hq2 : ∀ c ∈ (normalizeForMatch x).getLast?, isQuoteN c = false)
    (hdots : ((normalizeForMatch x).rtakeWhile (fun c => c == 46)).length < 2) :
    normalizeForMatch (normalizeForMatch x) = normalizeForMatch x := by
  have ha : removeStars (normalizeForMatch x) = normalizeForMatch x := by
    rw [removeStars, List.filter_eq_self]
    intro c hc
    simpa using starFree_normalizeForMatch x c hc
  have hb : stripQuotes (normalizeForMatch x) = normalizeForMatch x := by
    rw [stripQuotes, dropWhile_eq_self_of_head hq1, rdropWhile_eq_self_of_getLast hq2]
  have hdd : dropTrailDots (normalizeForMatch x) = normalizeForMatch x := by
    unfold dropTrailDots
    rw [if_neg (by omega)]
  have hd : collapseWs (normalizeForMatch x) = normalizeForMatch x := by
    unfold collapseWs
    exact collapseWsAux_fixed (fun c hc hw => only32_normalizeForMatch hc hw)
      (noWsPair_normalizeForMatch x) false (by simp)
  have he : List.map lowerN (normalizeForMatch x) = normalizeForMatch x :=
    mapFix fun c hc => lowerFixed_normalizeForMatch hc
  have hf : trimN (normalizeForMatch x) = normalizeForMatch x := by
    have hrw : normalizeForMatch x = trimN (List.map lowerN (collapseWs (dropTrailDots
        (stripQuotes (removeStars x))))) := rfl
    rw [hrw, trimN_idem]
  have hun : normalizeForMatch (normalizeForMatch x)
      = trimN (List.map lowerN (collapseWs (dropTrailDots (stripQuotes
          (removeStars (normalizeForMatch x)))))) := rfl
  rw [hun, ha, hb, hdd, hd, he, hf]

/-- Claim C7 counterexample: on the input [32, 39, 97] (space, single quote,
letter a) the first pass trims the leading space only after the
quote-stripping stage ran, leaving [39, 97]; a second pass then strips the
exposed quote, yielding [97] — so normalize is not idempotent. -/
theorem normalizeForMatch_not_idem :
    normalizeForMatch (normalizeForMatch [32, 39, 97]) ≠
      normalizeForMatch [32, 39, 97] := by decide

/-- Witness for C7's amended theorem at a concrete input. -/
theorem normalizeForMatch_idem_witness :
    normalizeForMatch (normalizeForMatch (strNats "Hello  World")) =
      normalizeForMatch (strNats "Hello  World") :=
  normalizeForMatch_idem_of_boundary _ (by decide) (by decide) (by decide)

/-! ### Range Matcher (`findTokenRange`, src/static/js/textHighlight.js:386-426)
and the sentence-matching ladder of `highlightSentence` (ibid. 474-496). -/

/-- Per-token character range `{ start, end }` recorded while building the
normalized concatenation (`end` is a Lean keyword, so the field is `stop`). -/
structure TokRange where
  start : Nat
  stop : Nat
deriving DecidableEq, Repr

/-- One concatenation step of `findTokenRange`: if the accumulated string ends
in `-` (code 45) the next word is joined with the hyphen dropped and no space,
otherwise words are joined with a single space (code 32). -/
def joinNorm (acc w : List Nat) : List Nat :=
  if acc.getLast? = some 45 then acc.dropLast ++ w
  else if acc = [] then w
  else acc ++ 32 :: w

/-- The `for (const t of tokens)` loop of `findTokenRange`: builds `fullNorm`
and the per-token `ranges` table.  A token normalizing to the empty string
contributes nothing and records an empty `[len, len)` range. -/
def buildNorm : List Nat → List (List Nat) → List Nat × List TokRange
  | full, [] => (full, [])
  | full, t :: ts =>
    let norm := normalizeForMatch t
    if norm = [] then
      let r := buildNorm full ts
      (r.1, ⟨full.length, full.length⟩ :: r.2)
    else
      let full2 := joinNorm full norm
      let r := buildNorm full2 ts
      (r.1, ⟨full.length, full2.length⟩ :: r.2)

/-- The normalized concatenation of a token list (`fullNorm`). -/
def fullNormOf (tokens : List (List Nat)) : List Nat := (buildNorm [] tokens).1

/-- The per-token range table of a token list (`ranges`). -/
def rangesOf (tokens : List (List Nat)) : List TokRange := (buildNorm [] tokens).2

/-- `pat` occurs in `hay` starting at position `s`. -/
def occursAtB (hay pat : List Nat) (s : Nat) : Bool :=
  ((hay.drop s).take pat.length == pat) && decide (s + pat.length ≤ hay.length)

/-- `String.prototype.indexOf`: position of the first occurrence, if any. -/
def firstOccur (hay pat : List Nat) : Option Nat :=
  (List.range (hay.length + 1)).find? (occursAtB hay pat)

/-- The retry ladder of `findTokenRange`: whole search string, then its first
60 characters (only when longer than 40), then its first 40 (only when longer
than 25); result is `(matchStart, matchLen)`. -/
def ladder (fullNorm searchNorm : List Nat) : Option (Nat × Nat) :=
  match firstOccur fullNorm searchNorm with
  | some m => some (m, searchNorm.length)
  | none =>
    match if 40 < searchNorm.length then firstOccur fullNorm (searchNorm.take 60) else none with
    | some m => some (m, min 60 searchNorm.length)
    | none =>
      match if 25 < searchNorm.length then firstOccur fullNorm (searchNorm.take 40) else none with
      | some m => some (m, min 40 searchNorm.length)
      | none => none

/-- `r.end > matchStart && r.start < matchEnd`. -/
def overlapsB (r : TokRange) (matchStart matchEnd : Nat) : Bool :=
  decide (matchStart < r.stop) && decide (r.start < matchEnd)

/-- The `ranges.forEach((r, i) => ...)` translation of the character window
back to token indices: all indices whose range overlaps the window, in order. -/
def selectOverlap (ranges : List TokRange) (matchStart matchEnd : Nat) : List Nat :=
  (List.range ranges.length).filter fun i =>
    ((ranges[i]?).map fun r => overlapsB r matchStart matchEnd).getD false

/-- `findTokenRange(tokens, searchNorm)` (src/static/js/textHighlight.js:386-426). -/
def findTokenRange (tokens : List (List Nat)) (searchNorm : List Nat) : List Nat :=
  match ladder (fullNormOf tokens) searchNorm with
  | none => []
  | some (m, len) => selectOverlap (rangesOf tokens) m (m + len)

/-- Worker for `splitWs`; `cur` is the reversed current word. -/
def splitWsAux : List Nat → List Nat → List (List Nat)
  | cur, [] => if cur = [] then [] else [cur.reverse]
  | cur, c :: rest =>
    if isWsN c then
      if cur = [] then splitWsAux [] rest
      else cur.reverse :: splitWsAux [] rest
    else splitWsAux (c :: cur) rest

/-- `str.split(/\s+/)` with empty fragments removed (the callers follow the
split either with `.filter(w => w.length > 0)` or with a length filter that
discards empties anyway). -/
def splitWs (l : List Nat) : List (List Nat) := splitWsAux [] l

/-- `words.join(' ')`. -/
def joinSpace (ws : List (List Nat)) : List Nat := List.intercalate [32] ws

/-- The last-resort anchor of `highlightSentence`: normalize the sentence,
split into words, keep words of length > 3, join the first five with spaces. -/
def anchorOf (sentenceText : List Nat) : List Nat :=
  joinSpace (((splitWs (normalizeForMatch sentenceText)).filter fun w => 3 < w.length).take 5)

/-- The descending raw character budgets tried by `highlightSentence`
(`prefixLengths` in the source). -/
def ladderLens : List Nat := [80, 60, 50, 40, 30]

/-- The `for (const len of prefixLengths)` loop of `highlightSentence`: take
the first `n` raw characters, normalize, skip if shorter than 15, otherwise
search; stop at the first budget whose search selects at least one token. -/
def tryLens (tokenTexts : List (List Nat)) (sentenceText : List Nat) :
    List Nat → List Nat
  | [] => []
  | n :: rest =>
    let p := normalizeForMatch (sentenceText.take n)
    if p.length < 15 then tryLens tokenTexts sentenceText rest
    else
      let r := findTokenRange tokenTexts p
      if r = [] then tryLens tokenTexts sentenceText rest else r

/-- The token indices `highlightSentence` ends up highlighting for a given
token-text sequence: the budget ladder first, then the anchor-word fallback. -/
def highlightIndices (tokenTexts : List (List Nat)) (sentenceText : List Nat) :
    List Nat :=
  let indices := tryLens tokenTexts sentenceText ladderLens
  if indices = [] then
    let a := anchorOf sentenceText
    if a = [] then [] else findTokenRange tokenTexts a
  else indices

example : fullNormOf [strNats "ab", strNats "cd"] = strNats "ab cd" := by decide
example : rangesOf [strNats "ab", strNats "cd"] = [⟨0, 2⟩, ⟨2, 5⟩] := by decide
example : fullNormOf [strNats "inter-", strNats "national", strNats "cooperation"]
    = strNats "international cooperation" := by decide
example : findTokenRange [strNats "ab", strNats "cd"] (strNats "ab cd") = [0, 1] := by decide
example : firstOccur (strNats "xy ab cd ef") (strNats "ab cd") = some 3 := by decide
example : anchorOf (strNats "the quick brown foxes jumped over lazy dogs today indeed")
    = strNats "quick brown foxes jumped over" := by decide

/-! ### Structural lemmas about the normalized concatenation -/

theorem joinNorm_nil (w : List Nat) : joinNorm [] w = w := by
  simp [joinNorm]

theorem joinNorm_of_ne {acc : List Nat} (w : List Nat) (hne : acc ≠ [])
    (h45 : acc.getLast? ≠ some 45) : joinNorm acc w = acc ++ 32 :: w := by
  rw [joinNorm, if_neg h45, if_neg hne]

theorem joinNorm_ne_nil {acc w : List Nat} (hw : w ≠ []) : joinNorm acc w ≠ [] := by
  unfold joinNorm
  split_ifs with h1 h2
  · simp [hw]
  · exact hw
  · simp

theorem joinNorm_length_ge (acc : List Nat) {w : List Nat} (hw : w ≠ []) :
    acc.length ≤ (joinNorm acc w).length := by
  unfold joinNorm
  split_ifs with h1 h2
  · have hacc : acc ≠ [] := by
      intro h
      rw [h] at h1
      simp at h1
    have h1' : 1 ≤ acc.length := List.length_pos.mpr hacc
    have hw' : 1 ≤ w.length := List.length_pos.mpr hw
    simp only [List.length_append, List.length_dropLast]
    omega
  · simp [h2]
  · simp only [List.length_append, List.length_cons]
    omega

theorem buildNorm_append (full : List Nat) (xs ys : List (List Nat)) :
    buildNorm full (xs ++ ys)
      = ((buildNorm (buildNorm full xs).1 ys).1,
         (buildNorm full xs).2 ++ (buildNorm (buildNorm full xs).1 ys).2) := by
  induction xs generalizing full with
  | nil => simp [buildNorm]
  | cons t ts ih =>
    by_cases h : normalizeForMatch t = []
    · simp only [List.cons_append, buildNorm, h, if_pos, List.append_eq]
      rw [ih]
    · simp only [List.cons_append, buildNorm, h, if_neg, ite_false, List.append_eq]
      rw [ih]

theorem buildNorm_append_fst (full : List Nat) (xs ys : List (List Nat)) :
    (buildNorm full (xs ++ ys)).1 = (buildNorm (buildNorm full xs).1 ys).1 := by
  rw [buildNorm_append]

theorem buildNorm_append_snd (full : List Nat) (xs ys : List (List Nat)) :
    (buildNorm full (xs ++ ys)).2
      = (buildNorm full xs).2 ++ (buildNorm (buildNorm full xs).1 ys).2 := by
  rw [buildNorm_append]

theorem buildNorm_ranges_length (ts : List (List Nat)) :
    ∀ full, (buildNorm full ts).2.length = ts.length := by
  induction ts with
  | nil => intro full; rfl
  | cons t ts ih =>
    intro full
    by_cases h : normalizeForMatch t = []
    · simp [buildNorm, h, ih]
    · simp [buildNorm, h, ih]

theorem buildNorm_ranges_getElem (ts : List (List Nat)) :
    ∀ full k, k < ts.length →
      (buildNorm full ts).2[k]?
        = some ⟨(buildNorm full (ts.take k)).1.length,
                (buildNorm full (ts.take (k + 1))).1.length⟩ := by
  induction ts with
  | nil => intro full k hk; simp at hk
  | cons t ts ih =>
    intro full k hk
    match k with
    | 0 =>
      by_cases h : normalizeForMatch t = []
      · simp [buildNorm, h]
      · simp [buildNorm, h]
    | k + 1 =>
      have hk' : k < ts.length := by simpa using hk
      by_cases h : normalizeForMatch t = []
      · simp only [buildNorm, h, if_pos, List.getElem?_cons_succ, List.take_succ_cons]
        rw [ih full k hk']
      · simp only [buildNorm, h, if_neg, ite_false, List.getElem?_cons_succ,
          List.take_succ_cons]
        rw [ih (joinNorm full (normalizeForMatch t)) k hk']

theorem buildNorm_length_le (ts : List (List Nat)) :
    ∀ full : List Nat, full.length ≤ (buildNorm full ts).1.length := by
  induction ts with
  | nil => intro full; exact Nat.le_refl _
  | cons t ts ih =>
    intro full
    by_cases h : normalizeForMatch t = []
    · simpa [buildNorm, h] using ih full
    · have h1 := joinNorm_length_ge full (w := normalizeForMatch t) h
      have h2 := ih (joinNorm full (normalizeForMatch t))
      simp only [buildNorm, h, ite_false]
      exact Nat.le_trans h1 h2

theorem buildNorm_take_mono (ts : List (List Nat)) (full : List Nat)
    {k j : Nat} (h : k ≤ j) :
    (buildNorm full (ts.take k)).1.length ≤ (buildNorm full (ts.take j)).1.length := by
  have hsplit : ts.take j = ts.take k ++ (ts.take j).drop k := by
    conv_lhs => rw [← List.take_append_drop k (ts.take j)]
    rw [List.take_take, Nat.min_eq_left h]
  rw [hsplit, buildNorm_append]
  exact buildNorm_length_le _ _

theorem joinNorm_assoc {acc n : List Nat} (m : List Nat) (hn : n ≠ [])
    (h45 : acc.getLast? ≠ some 45) :
    joinNorm (joinNorm acc n) m = joinNorm acc (joinNorm n m) := by
  by_cases hacc : acc = []
  · subst hacc
    rw [joinNorm_nil, joinNorm_nil]
  · rw [joinNorm_of_ne n hacc h45]
    obtain ⟨b, n', rfl⟩ : ∃ b n', n = b :: n' := by
      cases n with
      | nil => exact absurd rfl hn
      | cons b n' => exact ⟨b, n', rfl⟩
    have hlast : (acc ++ 32 :: b :: n').getLast? = (b :: n').getLast? := by
      rw [List.getLast?_append, List.getLast?_cons_cons]
      have hsome : (b :: n').getLast? = some ((b :: n').getLast (by simp)) :=
        List.getLast?_eq_getLast _ (by simp)
      rw [hsome]
      rfl
    by_cases h45n : (b :: n').getLast? = some 45
    · rw [joinNorm, if_pos (by rw [hlast]; exact h45n)]
      rw [show joinNorm (b :: n') m = (b :: n').dropLast ++ m by
        rw [joinNorm, if_pos h45n]]
      rw [joinNorm_of_ne _ hacc h45]
      rw [List.dropLast_append]
      simp
    · rw [joinNorm, if_neg (by rw [hlast]; exact h45n), if_neg (by simp)]
      rw [show joinNorm (b :: n') m = (b :: n') ++ 32 :: m from
        joinNorm_of_ne _ (by simp) h45n]
      rw [joinNorm_of_ne _ hacc h45]
      simp

theorem buildNorm_join_dist (rest : List (List Nat)) :
    ∀ acc n : List Nat, n ≠ [] → (∀ t ∈ rest, normalizeForMatch t ≠ []) →
      acc.getLast? ≠ some 45 →
      (buildNorm (joinNorm acc n) rest).1 = joinNorm acc ((buildNorm n rest).1) := by
  induction rest with
  | nil => intro acc n _ _ _; rfl
  | cons t rest ih =>
    intro acc n hn hall h45
    have hm : normalizeForMatch t ≠ [] := hall t (List.mem_cons_self _ _)
    have hall' : ∀ u ∈ rest, normalizeForMatch u ≠ [] :=
      fun u hu => hall u (List.mem_cons_of_mem _ hu)
    simp only [buildNorm, hm, ite_false]
    rw [joinNorm_assoc (normalizeForMatch t) hn h45]
    exact ih acc (joinNorm n (normalizeForMatch t)) (joinNorm_ne_nil hm) hall' h45

/-- The claim's own notion of "normalized concatenation of a token sub-range
with the hyphen-join rule applied". -/
def subConcat (mids : List (List Nat)) : List Nat :=
  (mids.map normalizeForMatch).foldl joinNorm []

theorem buildNorm_eq_foldl (ts : List (List Nat)) :
    ∀ acc, (∀ t ∈ ts, normalizeForMatch t ≠ []) →
      (buildNorm acc ts).1 = (ts.map normalizeForMatch).foldl joinNorm acc := by
  induction ts with
  | nil => intro acc _; rfl
  | cons t ts ih =>
    intro acc hall
    have hm : normalizeForMatch t ≠ [] := hall t (List.mem_cons_self _ _)
    simp only [buildNorm, hm, ite_false, List.map_cons, List.foldl_cons]
    exact ih _ fun u hu => hall u (List.mem_cons_of_mem _ hu)

theorem mem_selectOverlap {ranges : List TokRange} {ms me k : Nat} :
    k ∈ selectOverlap ranges ms me
      ↔ ∃ r, ranges[k]? = some r ∧ ms < r.stop ∧ r.start < me := by
  unfold selectOverlap
  rw [List.mem_filter, List.mem_range]
  constructor
  · rintro ⟨hk, hb⟩
    have hsome : ranges[k]? = some ranges[k] := List.getElem?_eq_getElem hk
    rw [hsome] at hb
    simp only [Option.map_some', Option.getD_some, overlapsB, Bool.and_eq_true,
      decide_eq_true_eq] at hb
    exact ⟨ranges[k], hsome, hb.1, hb.2⟩
  · rintro ⟨r, hr, h1, h2⟩
    obtain ⟨hk, _⟩ := List.getElem?_eq_some.mp hr
    refine ⟨hk, ?_⟩
    rw [hr]
    simp [overlapsB, h1, h2]

theorem buildNorm_cons (full t : List Nat) (ts : List (List Nat)) :
    buildNorm full (t :: ts)
      = if normalizeForMatch t = [] then
          ((buildNorm full ts).1,
            (⟨full.length, full.length⟩ : TokRange) :: (buildNorm full ts).2)
        else
          ((buildNorm (joinNorm full (normalizeForMatch t)) ts).1,
            (⟨full.length, (joinNorm full (normalizeForMatch t)).length⟩ : TokRange)
              :: (buildNorm (joinNorm full (normalizeForMatch t)) ts).2) := by
  by_cases h : normalizeForMatch t = [] <;> simp [buildNorm, h]

/-- Claim C1 (amended): round-trip recovery holds for the first occurrence.
If the target's normalized form equals the hyphen-join concatenation of the
contiguous sub-range `mid` of the token sequence `pre ++ mid ++ post`, every
token of `mid` has nonempty normalized text, the concatenation of `pre` does
not end in a hyphen (so `mid` is not merged into a preceding hyphenated word),
the last token of `mid` strictly lengthens the concatenation (it is not a
single character merged onto a preceding hyphen), and the sub-range's own
position is the FIRST occurrence of the search string in the normalized
document, then `findTokenRange` selects exactly the indices of `mid`.
(As stated, without the first-occurrence condition, the claim is false:
`findTokenRange` returns the earliest occurrence.) -/
theorem findTokenRange_roundTrip (pre mid post : List (List Nat)) (target : List Nat)
    (hmid : mid ≠ [])
    (hnorm : ∀ t ∈ mid, normalizeForMatch t ≠ [])
    (hpre : (buildNorm [] pre).1.getLast? ≠ some 45)
    (hlast : (buildNorm [] (pre ++ mid.dropLast)).1.length
      < (buildNorm [] (pre ++ mid)).1.length)
    (hS : normalizeForMatch target = subConcat mid)
    (hocc : firstOccur (fullNormOf (pre ++ mid ++ post)) (normalizeForMatch target)
      = some (if (buildNorm [] pre).1 = [] then 0
              else (buildNorm [] pre).1.length + 1)) :
    ∀ k, k ∈ findTokenRange (pre ++ mid ++ post) (normalizeForMatch target)
      ↔ (pre.length ≤ k ∧ k < pre.length + mid.length) := by
  obtain ⟨m0, mrest, rfl⟩ : ∃ m0 mrest, mid = m0 :: mrest := by
    cases mid with
    | nil => exact absurd rfl hmid
    | cons a b => exact ⟨a, b, rfl⟩
  have hn0 : normalizeForMatch m0 ≠ [] := hnorm m0 (List.mem_cons_self _ _)
  have hnrest : ∀ t ∈ mrest, normalizeForMatch t ≠ [] :=
    fun t ht => hnorm t (List.mem_cons_of_mem _ ht)
  have hSsub : subConcat (m0 :: mrest) = (buildNorm (normalizeForMatch m0) mrest).1 := by
    rw [subConcat, List.map_cons, List.foldl_cons, joinNorm_nil,
      buildNorm_eq_foldl mrest _ hnrest]
  have hn0len : 1 ≤ (normalizeForMatch m0).length := List.length_pos.mpr hn0
  have hSlen : 1 ≤ (buildNorm (normalizeForMatch m0) mrest).1.length := by
    have h1 := buildNorm_length_le mrest (normalizeForMatch m0)
    omega
  have hQ : (buildNorm (buildNorm [] pre).1 (m0 :: mrest)).1
      = joinNorm (buildNorm [] pre).1 ((buildNorm (normalizeForMatch m0) mrest).1) := by
    rw [buildNorm_cons, if_neg hn0]
    exact buildNorm_join_dist mrest _ _ hn0 hnrest hpre
  have hQlen : (buildNorm (buildNorm [] pre).1 (m0 :: mrest)).1.length
      = (if (buildNorm [] pre).1 = [] then 0 else (buildNorm [] pre).1.length + 1)
        + (buildNorm (normalizeForMatch m0) mrest).1.length := by
    rw [hQ]
    by_cases hP : (buildNorm [] pre).1 = []
    · rw [hP, joinNorm_nil, if_pos rfl, Nat.zero_add]
    · rw [joinNorm_of_ne _ hP hpre, if_neg hP]
      simp only [List.length_append, List.length_cons]
      omega
  have hfirstlen : (joinNorm (buildNorm [] pre).1 (normalizeForMatch m0)).length
      = (if (buildNorm [] pre).1 = [] then 0 else (buildNorm [] pre).1.length + 1)
        + (normalizeForMatch m0).length := by
    by_cases hP : (buildNorm [] pre).1 = []
    · rw [hP, joinNorm_nil, if_pos rfl, Nat.zero_add]
    · rw [joinNorm_of_ne _ hP hpre, if_neg hP]
      simp only [List.length_append, List.length_cons]
      omega
  have hF : fullNormOf (pre ++ (m0 :: mrest) ++ post)
      = (buildNorm ((buildNorm (buildNorm [] pre).1 (m0 :: mrest)).1) post).1 := by
    rw [fullNormOf, buildNorm_append_fst, buildNorm_append_fst]
  have hlad : ladder (fullNormOf (pre ++ (m0 :: mrest) ++ post))
        (normalizeForMatch target)
      = some ((if (buildNorm [] pre).1 = [] then 0
              else (buildNorm [] pre).1.length + 1),
          (normalizeForMatch target).length) := by
    rw [ladder, hocc]
  have hfind : findTokenRange (pre ++ (m0 :: mrest) ++ post) (normalizeForMatch target)
      = selectOverlap (rangesOf (pre ++ (m0 :: mrest) ++ post))
          (if (buildNorm [] pre).1 = [] then 0 else (buildNorm [] pre).1.length + 1)
          ((if (buildNorm [] pre).1 = [] then 0 else (buildNorm [] pre).1.length + 1)
            + (normalizeForMatch target).length) := by
    rw [findTokenRange, hlad]
  -- abbreviations for the prefix lengths of the normalized concatenation
  have hLpre : (buildNorm [] ((pre ++ (m0 :: mrest) ++ post).take pre.length)).1
      = (buildNorm [] pre).1 := by
    rw [List.append_assoc, List.take_left]
  have hLmid : (buildNorm [] ((pre ++ (m0 :: mrest) ++ post).take
        (pre.length + (mrest.length + 1)))).1
      = (buildNorm (buildNorm [] pre).1 (m0 :: mrest)).1 := by
    have e2 : ((m0 :: mrest) ++ post).take (mrest.length + 1) = m0 :: mrest := by
      rw [List.take_append_of_le_length (by simp)]
      exact List.take_of_length_le (by simp)
    have e : (pre ++ (m0 :: mrest) ++ post).take (pre.length + (mrest.length + 1))
        = pre ++ (m0 :: mrest) := by
      rw [List.append_assoc, List.take_append, e2]
    rw [e, buildNorm_append_fst]
  have hLfirst : (buildNorm [] ((pre ++ (m0 :: mrest) ++ post).take
        (pre.length + 1))).1
      = joinNorm (buildNorm [] pre).1 (normalizeForMatch m0) := by
    rw [List.append_assoc, List.take_append]
    have h1 : ((m0 :: mrest) ++ post).take 1 = [m0] := by simp
    rw [h1, buildNorm_append_fst]
    show (buildNorm (buildNorm [] pre).1 [m0]).1 = _
    rw [buildNorm_cons, if_neg hn0]
    rfl
  have hLdrop : (buildNorm [] ((pre ++ (m0 :: mrest) ++ post).take
        (pre.length + mrest.length))).1
      = (buildNorm [] (pre ++ (m0 :: mrest).dropLast)).1 := by
    have e2 : ((m0 :: mrest) ++ post).take mrest.length = (m0 :: mrest).dropLast := by
      rw [List.take_append_of_le_length (by simp), List.dropLast_eq_take,
        show (m0 :: mrest).length - 1 = mrest.length from by simp]
    have e : (pre ++ (m0 :: mrest) ++ post).take (pre.length + mrest.length)
        = pre ++ (m0 :: mrest).dropLast := by
      rw [List.append_assoc, List.take_append, e2]
    rw [e]
  have hmono : ∀ {a b : Nat}, a ≤ b →
      (buildNorm [] ((pre ++ (m0 :: mrest) ++ post).take a)).1.length
        ≤ (buildNorm [] ((pre ++ (m0 :: mrest) ++ post).take b)).1.length :=
    fun h => buildNorm_take_mono _ _ h
  have hNlen : (pre ++ (m0 :: mrest) ++ post).length
      = pre.length + (mrest.length + 1) + post.length := by
    simp
    omega
  intro k
  rw [hfind, mem_selectOverlap]
  by_cases hk : k < (pre ++ (m0 :: mrest) ++ post).length
  · have hr := buildNorm_ranges_getElem (pre ++ (m0 :: mrest) ++ post) [] k hk
    rw [show rangesOf (pre ++ (m0 :: mrest) ++ post)
        = (buildNorm [] (pre ++ (m0 :: mrest) ++ post)).2 from rfl, hr]
    constructor
    · rintro ⟨r, hrr, h1, h2⟩
      rw [Option.some.injEq] at hrr
      subst hrr
      simp only at h1 h2
      constructor
      · by_contra hlt
        push_neg at hlt
        have hle : k + 1 ≤ pre.length := hlt
        have hmle := hmono hle
        rw [hLpre] at hmle
        by_cases hP : (buildNorm [] pre).1 = []
        · rw [if_pos hP] at h1
          rw [hP] at hmle
          simp only [List.length_nil] at hmle
          omega
        · rw [if_neg hP] at h1
          omega
      · by_contra hge
        push_neg at hge
        have hge' : pre.length + (mrest.length + 1) ≤ k := by
          simpa using hge
        have hmle := hmono hge'
        rw [hLmid, hQlen] at hmle
        rw [hS, hSsub] at h2
        omega
    · rintro ⟨hk1, hk2⟩
      refine ⟨_, rfl, ?_, ?_⟩
      all_goals dsimp only
      · have h1 : pre.length + 1 ≤ k + 1 := by omega
        have hmle := hmono h1
        rw [hLfirst, hfirstlen] at hmle
        omega
      · have hk2' : k ≤ pre.length + mrest.length := by
          simp only [List.length_cons] at hk2
          omega
        have hmle := hmono hk2'
        rw [hLdrop, buildNorm_append_fst] at hmle
        have hlast' := hlast
        rw [buildNorm_append_fst, buildNorm_append_fst] at hlast'
        rw [hQlen] at hlast'
        rw [hS, hSsub]
        omega
  · constructor
    · rintro ⟨r, hrr, -, -⟩
      rw [List.getElem?_eq_none (by
        rw [rangesOf, buildNorm_ranges_length]
        omega)] at hrr
      exact absurd hrr (by simp)
    · rintro ⟨-, hk2⟩
      rw [hNlen] at hk
      simp only [List.length_cons] at hk2
      omega

/-- Claim C1 counterexample: the normalized target equals the hyphen-join
concatenation of the contiguous sub-range at indices 2-3 of
`["ab","cd","ab","cd"]`, yet `findTokenRange` selects tokens 0-1 (the first
occurrence), not that sub-range. -/
theorem findTokenRange_roundTrip_counterexample :
    normalizeForMatch (strNats "ab cd") = subConcat [strNats "ab", strNats "cd"]
    ∧ findTokenRange [strNats "ab", strNats "cd", strNats "ab", strNats "cd"]
        (normalizeForMatch (strNats "ab cd")) = [0, 1]
    ∧ (2 : Nat) ∉ findTokenRange [strNats "ab", strNats "cd", strNats "ab", strNats "cd"]
        (normalizeForMatch (strNats "ab cd")) := by decide

/-- Witness for C1's amended theorem at a concrete input. -/
theorem findTokenRange_roundTrip_witness :
    (1 : Nat) ∈ findTokenRange [strNats "xy", strNats "ab", strNats "cd", strNats "ef"]
        (normalizeForMatch (strNats "ab cd"))
      ↔ (1 ≤ 1 ∧ 1 < 1 + 2) := by
  have h := findTokenRange_roundTrip [strNats "xy"] [strNats "ab", strNats "cd"]
    [strNats "ef"] (strNats "ab cd") (by decide) (by decide) (by decide) (by decide)
    (by decide) (by decide) 1
  simpa using h

/-! ### Claim C2: what happens when the whole normalized sentence is contained -/

theorem buildNorm_cover (ts : List (List Nat)) :
    ∀ full p, full.length ≤ p → p < (buildNorm full ts).1.length →
      ∃ k, k < ts.length ∧ ∃ r, (buildNorm full ts).2[k]? = some r
        ∧ r.start ≤ p ∧ p < r.stop := by
  induction ts with
  | nil =>
    intro full p h1 h2
    exact absurd h2 (by simp [buildNorm]; omega)
  | cons t ts ih =>
    intro full p h1 h2
    by_cases h : normalizeForMatch t = []
    · have h2' : p < (buildNorm full ts).1.length := by
        rw [buildNorm_cons, if_pos h] at h2
        simpa using h2
      obtain ⟨k, hk, r, hr, hr1, hr2⟩ := ih full p h1 h2'
      refine ⟨k + 1, by simpa using hk, r, ?_, hr1, hr2⟩
      rw [buildNorm_cons, if_pos h]
      simpa using hr
    · by_cases hp : p < (joinNorm full (normalizeForMatch t)).length
      · refine ⟨0, by simp, ⟨full.length, (joinNorm full (normalizeForMatch t)).length⟩,
          ?_, h1, hp⟩
        rw [buildNorm_cons, if_neg h]
        simp
      · push_neg at hp
        have h2' : p < (buildNorm (joinNorm full (normalizeForMatch t)) ts).1.length := by
          rw [buildNorm_cons, if_neg h] at h2
          simpa using h2
        obtain ⟨k, hk, r, hr, hr1, hr2⟩ := ih (joinNorm full (normalizeForMatch t)) p hp h2'
        refine ⟨k + 1, by simpa using hk, r, ?_, hr1, hr2⟩
        rw [buildNorm_cons, if_neg h]
        simpa using hr

theorem firstOccur_some_le {hay pat : List Nat} {m : Nat}
    (h : firstOccur hay pat = some m) : m + pat.length ≤ hay.length := by
  have hp := List.find?_some h
  rw [occursAtB, Bool.and_eq_true, decide_eq_true_eq] at hp
  exact hp.2

theorem highlightIndices_def (tokenTexts : List (List Nat)) (sentenceText : List Nat) :
    highlightIndices tokenTexts sentenceText
      = if tryLens tokenTexts sentenceText ladderLens = [] then
          (if anchorOf sentenceText = [] then []
           else findTokenRange tokenTexts (anchorOf sentenceText))
        else tryLens tokenTexts sentenceText ladderLens := rfl

theorem tryLens_cons (tokenTexts : List (List Nat)) (sentenceText : List Nat)
    (n : Nat) (rest : List Nat) :
    tryLens tokenTexts sentenceText (n :: rest)
      = if (normalizeForMatch (sentenceText.take n)).length < 15 then
          tryLens tokenTexts sentenceText rest
        else if findTokenRange tokenTexts (normalizeForMatch (sentenceText.take n)) = [] then
          tryLens tokenTexts sentenceText rest
        else findTokenRange tokenTexts (normalizeForMatch (sentenceText.take n)) := rfl

/-- Claim C2 (amended): full containment is attempted first only through the
80-raw-character budget.  When the sentence's RAW length is at most 80 (so the
first ladder budget covers the whole sentence) and its normalized form is at
least 15 characters and occurs in the normalized token concatenation, the
match window is the full-sentence occurrence `[m, m + |normalized sentence|)`
— prefix shortening never fires — and at least one token is selected.  For
raw sentences longer than 80 characters `highlightSentence` never searches for
the whole normalized sentence: the longest window it tries is the normalized
first 80 raw characters (see the counterexample). -/
theorem highlightSentence_full_containment (tokenTexts : List (List Nat))
    (sentenceText : List Nat) (m : Nat)
    (hlen : sentenceText.length ≤ 80)
    (h15 : 15 ≤ (normalizeForMatch sentenceText).length)
    (hocc : firstOccur (fullNormOf tokenTexts) (normalizeForMatch sentenceText)
      = some m) :
    highlightIndices tokenTexts sentenceText
      = selectOverlap (rangesOf tokenTexts) m
          (m + (normalizeForMatch sentenceText).length)
    ∧ highlightIndices tokenTexts sentenceText ≠ [] := by
  have htake : sentenceText.take 80 = sentenceText := List.take_of_length_le hlen
  have hfind : findTokenRange tokenTexts (normalizeForMatch sentenceText)
      = selectOverlap (rangesOf tokenTexts) m
          (m + (normalizeForMatch sentenceText).length) := by
    rw [findTokenRange, ladder, hocc]
  have hne : findTokenRange tokenTexts (normalizeForMatch sentenceText) ≠ [] := by
    rw [hfind]
    have hbound := firstOccur_some_le hocc
    have hmlt : m < (fullNormOf tokenTexts).length := by omega
    obtain ⟨k, hk, r, hr, hr1, hr2⟩ := buildNorm_cover tokenTexts [] m (by simp) hmlt
    intro hemp
    have hksel : k ∈ selectOverlap (rangesOf tokenTexts) m
        (m + (normalizeForMatch sentenceText).length) := by
      rw [mem_selectOverlap]
      exact ⟨r, hr, hr2, by omega⟩
    rw [hemp] at hksel
    simp at hksel
  have hloop : tryLens tokenTexts sentenceText ladderLens
      = findTokenRange tokenTexts (normalizeForMatch sentenceText) := by
    rw [show ladderLens = 80 :: [60, 50, 40, 30] from rfl, tryLens_cons, htake,
      if_neg (by omega), if_neg hne]
  rw [highlightIndices_def, hloop, if_neg hne, hfind]
  exact ⟨rfl, hfind ▸ hne⟩

/-- The 28-token page used by the C2 counterexample: "ab ab ... ab". -/
def c2Toks : List (List Nat) := List.replicate 28 (strNats "ab")

/-- The 83-character sentence "ab ab ... ab" (28 words). -/
def c2Sentence : List Nat := joinSpace c2Toks

/-- Claim C2 counterexample: the sentence is 83 raw characters long and its
fully-normalized form occurs in the normalized token concatenation at 0 (full
containment holds), and token 27's range [80,83) overlaps that full-sentence
window, yet the matcher never uses the full occurrence: it matches only the
normalized first 80 raw characters, so token 27 is not selected. -/
theorem highlightSentence_full_containment_counterexample :
    c2Sentence.length = 83
    ∧ firstOccur (fullNormOf c2Toks) (normalizeForMatch c2Sentence) = some 0
    ∧ (rangesOf c2Toks)[27]? = some ⟨80, 83⟩
    ∧ (normalizeForMatch c2Sentence).length = 83
    ∧ highlightIndices c2Toks c2Sentence ≠ []
    ∧ (27 : Nat) ∉ highlightIndices c2Toks c2Sentence := by decide

/-- Witness for C2's amended theorem at a concrete input. -/
theorem highlightSentence_full_containment_witness :
    highlightIndices [strNats "hello", strNats "world", strNats "again"]
        (strNats "hello world again")
      = selectOverlap (rangesOf [strNats "hello", strNats "world", strNats "again"]) 0
          (0 + (normalizeForMatch (strNats "hello world again")).length)
    ∧ highlightIndices [strNats "hello", strNats "world", strNats "again"]
        (strNats "hello world again") ≠ [] :=
  highlightSentence_full_containment _ _ 0 (by decide) (by decide) (by decide)

/-! ### Claim C8: empty-span tokens and the overlap translation -/

theorem buildNorm_insert_ws_fst (xs ys : List (List Nat)) {w : List Nat}
    (hw : normalizeForMatch w = []) (a : List Nat) :
    (buildNorm a (xs ++ w :: ys)).1 = (buildNorm a (xs ++ ys)).1 := by
  rw [buildNorm_append_fst, buildNorm_append_fst, buildNorm_cons, if_pos hw]

theorem buildNorm_insert_ws_snd (xs ys : List (List Nat)) {w : List Nat}
    (hw : normalizeForMatch w = []) (a : List Nat) :
    (buildNorm a (xs ++ w :: ys)).2
      = (buildNorm a xs).2
        ++ (⟨(buildNorm a xs).1.length, (buildNorm a xs).1.length⟩ : TokRange)
          :: (buildNorm (buildNorm a xs).1 ys).2 := by
  rw [buildNorm_append_snd, buildNorm_cons, if_pos hw]

theorem mem_selectOverlap_insert_lt {R1 R2 : List TokRange} {r0 : TokRange}
    {ms me k : Nat} (hk : k < R1.length) :
    k ∈ selectOverlap (R1 ++ r0 :: R2) ms me ↔ k ∈ selectOverlap (R1 ++ R2) ms me := by
  rw [mem_selectOverlap, mem_selectOverlap]
  have e : (R1 ++ r0 :: R2)[k]? = (R1 ++ R2)[k]? := by
    rw [List.getElem?_append, List.getElem?_append, if_pos hk, if_pos hk]
  rw [e]

theorem mem_selectOverlap_insert_ge {R1 R2 : List TokRange} {r0 : TokRange}
    {ms me k : Nat} (hk : R1.length ≤ k) :
    k + 1 ∈ selectOverlap (R1 ++ r0 :: R2) ms me ↔ k ∈ selectOverlap (R1 ++ R2) ms me := by
  rw [mem_selectOverlap, mem_selectOverlap]
  have e : (R1 ++ r0 :: R2)[k + 1]? = (R1 ++ R2)[k]? := by
    rw [List.getElem?_append, List.getElem?_append,
      if_neg (by omega), if_neg (by omega),
      show k + 1 - R1.length = (k - R1.length) + 1 from by omega,
      List.getElem?_cons_succ]
  rw [e]

theorem findTokenRange_insert_ws (xs ys : List (List Nat)) {w : List Nat}
    (searchNorm : List Nat) (hw : normalizeForMatch w = []) :
    (∀ j, j < xs.length →
      (j ∈ findTokenRange (xs ++ w :: ys) searchNorm
        ↔ j ∈ findTokenRange (xs ++ ys) searchNorm))
    ∧ (∀ j, xs.length ≤ j →
      (j + 1 ∈ findTokenRange (xs ++ w :: ys) searchNorm
        ↔ j ∈ findTokenRange (xs ++ ys) searchNorm))
    ∧ fullNormOf (xs ++ w :: ys) = fullNormOf (xs ++ ys) := by
  have hfull : fullNormOf (xs ++ w :: ys) = fullNormOf (xs ++ ys) :=
    buildNorm_insert_ws_fst xs ys hw []
  have hR1 : rangesOf (xs ++ w :: ys)
      = (buildNorm [] xs).2
        ++ (⟨(buildNorm [] xs).1.length, (buildNorm [] xs).1.length⟩ : TokRange)
          :: (buildNorm (buildNorm [] xs).1 ys).2 :=
    buildNorm_insert_ws_snd xs ys hw []
  have hR2 : rangesOf (xs ++ ys)
      = (buildNorm [] xs).2 ++ (buildNorm (buildNorm [] xs).1 ys).2 :=
    buildNorm_append_snd [] xs ys
  have hlen1 : (buildNorm [] xs).2.length = xs.length := buildNorm_ranges_length xs []
  refine ⟨?_, ?_, hfull⟩ <;> intro j hj <;>
    cases hl : ladder (fullNormOf (xs ++ ys)) searchNorm with
  | none =>
    rw [findTokenRange, findTokenRange, hfull, hl]
    try simp
  | some ml =>
    rw [findTokenRange, findTokenRange, hfull, hl, hR1, hR2]
    first
      | exact mem_selectOverlap_insert_lt (by omega)
      | exact mem_selectOverlap_insert_ge (by omega)

/-- Claim C8 (amended): a token whose recorded span is the empty range
`[p, p)` is selected exactly when `p` lies STRICTLY inside the match window
(`matchStart < p < matchEnd`); in particular it is never selected when its
position sits at or beyond either boundary — but, contrary to the claim, it
IS selected when strictly interior (see the counterexample).  Moreover the
presence of a whitespace-only token does not perturb the arithmetic for its
neighbours: inserting such a token leaves the normalized concatenation
unchanged and selects exactly the same non-empty tokens (indices above the
insertion point shift by one). -/
theorem findTokenRange_emptySpan (tokens xs ys : List (List Nat))
    (w searchNorm s2 : List Nat) {m len k p : Nat}
    (hw : normalizeForMatch w = [])
    (hlad : ladder (fullNormOf tokens) searchNorm = some (m, len))
    (hr : (rangesOf tokens)[k]? = some ⟨p, p⟩) :
    (k ∈ findTokenRange tokens searchNorm ↔ (m < p ∧ p < m + len))
    ∧ (∀ j, j < xs.length →
      (j ∈ findTokenRange (xs ++ w :: ys) s2 ↔ j ∈ findTokenRange (xs ++ ys) s2))
    ∧ (∀ j, xs.length ≤ j →
      (j + 1 ∈ findTokenRange (xs ++ w :: ys) s2 ↔ j ∈ findTokenRange (xs ++ ys) s2))
    ∧ fullNormOf (xs ++ w :: ys) = fullNormOf (xs ++ ys) := by
  obtain ⟨h1, h2, h3⟩ := findTokenRange_insert_ws xs ys s2 hw
  refine ⟨?_, h1, h2, h3⟩
  rw [findTokenRange, hlad, mem_selectOverlap]
  constructor
  · rintro ⟨r, hr', hs1, hs2⟩
    rw [hr] at hr'
    rw [Option.some.injEq] at hr'
    rw [← hr'] at hs1 hs2
    exact ⟨hs1, hs2⟩
  · rintro ⟨h1, h2⟩
    exact ⟨⟨p, p⟩, hr, h1, h2⟩

/-- Claim C8 counterexample: with tokens `["ab", " ", "cd"]` the middle
whitespace token records the empty span `[2,2)`, which lies strictly inside
the match window `[0,5)` for the search string "ab cd" — and `findTokenRange`
DOES select it (index 1), contradicting "empty-span tokens are never
selected". -/
theorem findTokenRange_emptySpan_counterexample :
    (rangesOf [strNats "ab", strNats " ", strNats "cd"])[1]? = some ⟨2, 2⟩
    ∧ findTokenRange [strNats "ab", strNats " ", strNats "cd"]
        (normalizeForMatch (strNats "ab cd")) = [0, 1, 2]
    ∧ (1 : Nat) ∈ findTokenRange [strNats "ab", strNats " ", strNats "cd"]
        (normalizeForMatch (strNats "ab cd")) := by decide

/-- Witness for C8's amended theorem at a concrete input. -/
theorem findTokenRange_emptySpan_witness :
    ((1 : Nat) ∈ findTokenRange [strNats "ab", strNats " ", strNats "cd"]
        (strNats "ab cd") ↔ (0 < 2 ∧ 2 < 0 + 5))
    ∧ (∀ j, j < 1 →
      (j ∈ findTokenRange [strNats "ab", strNats " ", strNats "cd"] (strNats "cd")
        ↔ j ∈ findTokenRange [strNats "ab", strNats "cd"] (strNats "cd")))
    ∧ (∀ j, 1 ≤ j →
      (j + 1 ∈ findTokenRange [strNats "ab", strNats " ", strNats "cd"] (strNats "cd")
        ↔ j ∈ findTokenRange [strNats "ab", strNats "cd"] (strNats "cd")))
    ∧ fullNormOf [strNats "ab", strNats " ", strNats "cd"]
        = fullNormOf [strNats "ab", strNats "cd"] :=
  findTokenRange_emptySpan [strNats "ab", strNats " ", strNats "cd"]
    [strNats "ab"] [strNats "cd"] (strNats " ") (strNats "ab cd") (strNats "cd")
    (by decide) (by decide) (by decide)

/-! ### Claim C3: reading-order comparator (src/static/js/textHighlight.js:448-456) -/

/-- A positioned run as stamped on the text-layer divs (`data-pdf-x`,
`data-pdf-y`, PDF points, Y increasing upward).  Coordinates are modelled as
integers; the comparator only subtracts and compares them. -/
structure Run where
  pdfX : Int
  pdfY : Int
deriving DecidableEq, Repr

/-- Same-line tolerance, `LINE_Y_PT` in the source. -/
def LINE_Y_PT : Int := 3

/-- The sort comparator: `dy = by - ay; if (Math.abs(dy) > LINE_Y_PT) return
-dy; return ax - bx` — a negative result places `a` before `b`. -/
def compareItems (a b : Run) : Int :=
  let dy := b.pdfY - a.pdfY
  if LINE_Y_PT < |dy| then -dy else a.pdfX - b.pdfX

/-- `Array.prototype.sort` with a consistent comparator: a stable sort whose
output is ordered by `compareItems a b ≤ 0`; modelled with the stable
insertion sort. -/
def sortedItems (runs : List Run) : List Run :=
  List.insertionSort (fun a b => compareItems a b ≤ 0) runs

/-- Claim C3 (evaluation of the code at the failing input): for two runs on
different lines — `a` at pdfY = 100 (higher on the page) and `b` at pdfY = 10
(lower) — the comparator returns `-dy = ay - by = 90 > 0`, so the sort places
the LOWER run first: the code orders runs bottom-to-top, contradicting both
the claim and the code's own comments ("larger Y = higher on the page (top of
page first)", "top → bottom"). -/
theorem sortedItems_bottom_first :
    sortedItems [⟨0, 100⟩, ⟨0, 10⟩] = [⟨0, 10⟩, ⟨0, 100⟩]
    ∧ compareItems ⟨0, 100⟩ ⟨0, 10⟩ = 90 := by decide

/-! ### Claim C4: Page Render Coordinator (src/static/js/questions.js:301-351) -/

/-- The coordinator's state: `pageRendering`/`pageNumPending` mirror the
globals of the source; `rendersStarted` is the history of pages whose render
actually began, recorded for the specification. -/
structure CoordState where
  pageRendering : Bool
  pageNumPending : Option Nat
  rendersStarted : List Nat
deriving DecidableEq, Repr

/-- `renderPage(num)`: marks a render in flight and starts rendering `num`. -/
def renderPage (s : CoordState) (num : Nat) : CoordState :=
  { s with pageRendering := true, rendersStarted := s.rendersStarted ++ [num] }

/-- `queueRenderPage(num)`: if a render is in flight remember `num` as the
single pending target (newest wins), else render immediately. -/
def queueRenderPage (s : CoordState) (num : Nat) : CoordState :=
  if s.pageRendering then { s with pageNumPending := some num }
  else renderPage s num

/-- Completion of the in-flight render: `pageRendering = false`, then if a
pending target exists, render it and clear the pending slot. -/
def completeRender (s : CoordState) : CoordState :=
  let s1 := { s with pageRendering := false }
  match s1.pageNumPending with
  | some p => { renderPage s1 p with pageNumPending := none }
  | none => s1

/-- One coordinator event. -/
inductive CoordEvent where
  | request (num : Nat)
  | complete
deriving DecidableEq, Repr

/-- Run a sequence of coordinator events. -/
def coordRun (s : CoordState) : List CoordEvent → CoordState
  | [] => s
  | CoordEvent.request n :: es => coordRun (queueRenderPage s n) es
  | CoordEvent.complete :: es => coordRun (completeRender s) es

/-- Claim C4: the coordinator is newest-pending-wins with at most one render
in flight.  (1) A request arriving while a render is in flight only overwrites
the single pending target — no render starts, any older pending target is
discarded.  (2) On completion with a pending target `p`, the pending slot is
cleared and `p`'s render begins.  (3) In the spec's scenario — requests for
pages 3, 4, 5 while page 3 is still rendering, then two completions — exactly
two renders occur, 3 then 5, and page 4 is never rendered. -/
theorem queueRenderPage_newest_pending_wins :
    (∀ (s : CoordState) (n : Nat), s.pageRendering = true →
      queueRenderPage s n = { s with pageNumPending := some n })
    ∧ (∀ (s : CoordState) (p : Nat), s.pageNumPending = some p →
      completeRender s
        = { pageRendering := true, pageNumPending := none,
            rendersStarted := s.rendersStarted ++ [p] })
    ∧ (coordRun ⟨false, none, []⟩
        [CoordEvent.request 3, CoordEvent.request 4, CoordEvent.request 5,
         CoordEvent.complete, CoordEvent.complete]).rendersStarted = [3, 5]
    ∧ (4 : Nat) ∉ (coordRun ⟨false, none, []⟩
        [CoordEvent.request 3, CoordEvent.request 4, CoordEvent.request 5,
         CoordEvent.complete, CoordEvent.complete]).rendersStarted := by
  refine ⟨?_, ?_, by decide, by decide⟩
  · intro s n h
    rw [queueRenderPage, if_pos h]
  · intro s p h
    rw [completeRender]
    cases s with
    | mk r pend hist =>
      simp only at h
      subst h
      rfl

/-- Witness for C4's theorem at a concrete state. -/
theorem queueRenderPage_newest_pending_wins_witness :
    queueRenderPage ⟨true, some 9, [3]⟩ 7 = ⟨true, some 7, [3]⟩ :=
  queueRenderPage_newest_pending_wins.1 ⟨true, some 9, [3]⟩ 7 rfl

/-! ### Claim C5: cancellation of word-progress callbacks
(src/static/js/reading_chat.js:150-200, src/static/js/questions.js:301-351,
src/static/js/session_chat.js:127-158) -/

/-- One scheduled word-progress callback: the identity (generation) of the
audio object it closes over, and the word index it will highlight. -/
structure TimerCb where
  gen : Nat
  idx : Nat
deriving DecidableEq, Repr

/-- The reader's state.  `currentAudio` holds the identity of the audio object
the guard `state.currentAudio === audio` compares against (`none` = null);
`audioSeq` is the source of fresh identities.  `sentenceHL` is the ordered
list of word tokens carrying `.highlight`, `wordHL` the tokens carrying
`.highlight-word`, `currentHighlightedSpans` the tracked span list. -/
structure ReaderState where
  wordHighlightTimeouts : List TimerCb
  currentAudio : Option Nat
  audioSeq : Nat
  sentenceHL : List Nat
  wordHL : List Nat
  currentHighlightedSpans : List Nat
deriving DecidableEq, Repr

/-- `playAudio` for a new sentence: clear all pending timeouts, make a fresh
audio object the current one, and schedule one callback per word (scheduling
happens on `loadedmetadata`; the model folds that completion in). -/
def playAudio (s : ReaderState) (wordCount : Nat) : ReaderState :=
  { s with
    wordHighlightTimeouts := (List.range wordCount).map fun i => ⟨s.audioSeq + 1, i⟩,
    currentAudio := some (s.audioSeq + 1),
    audioSeq := s.audioSeq + 1 }

/-- `pauseReading`: clear every pending timeout and all word highlights; the
current audio reference is kept (only paused). -/
def pauseReading (s : ReaderState) : ReaderState :=
  { s with wordHighlightTimeouts := [], wordHL := [] }

/-- `clearHighlights`: remove both classes from the tracked spans and reset
the tracked list. -/
def clearHighlightsR (s : ReaderState) : ReaderState :=
  { s with
    sentenceHL := s.sentenceHL.filter fun i => !(s.currentHighlightedSpans.contains i),
    wordHL := s.wordHL.filter fun i => !(s.currentHighlightedSpans.contains i),
    currentHighlightedSpans := [] }

/-- A page change: `renderPage` calls `clearHighlights()` synchronously at
render start; it does NOT touch `wordHighlightTimeouts` or `currentAudio`. -/
def pageChangeRender (s : ReaderState) : ReaderState := clearHighlightsR s

/-- Session end (`goHome`): pauses the audio and nulls `state.currentAudio`;
it does NOT clear the pending timeouts. -/
def goHome (s : ReaderState) : ReaderState :=
  { s with currentAudio := none }

/-- `highlightCurrentWordInSentence`, at the word-token level: clear all word
marks, then mark the `idx`-th token of the current (visually ordered,
non-whitespace) sentence-highlighted list, if it exists. -/
def highlightCurrentWordR (s : ReaderState) (idx : Nat) : ReaderState :=
  { s with wordHL := match s.sentenceHL[idx]? with
                     | some tok => [tok]
                     | none => [] }

/-- A scheduled callback fires: it is consumed, and its body runs only behind
the identity guard `state.currentAudio === audio`. -/
def fireTimer (s : ReaderState) (t : TimerCb) : ReaderState :=
  if t ∈ s.wordHighlightTimeouts then
    if s.currentAudio = some t.gen then
      highlightCurrentWordR
        { s with wordHighlightTimeouts := s.wordHighlightTimeouts.erase t } t.idx
    else { s with wordHighlightTimeouts := s.wordHighlightTimeouts.erase t }
  else s

theorem playAudio_currentAudio (s : ReaderState) (wc : Nat) :
    (playAudio s wc).currentAudio = some (s.audioSeq + 1) := rfl

theorem goHome_currentAudio (s : ReaderState) : (goHome s).currentAudio = none := rfl

/-- The observable highlight state: (sentence-highlighted, word-highlighted). -/
def highlightView (s : ReaderState) : List Nat × List Nat := (s.sentenceHL, s.wordHL)

/-- Claim C5 (amended): starting a new sentence's audio cancels every
previously scheduled callback (only fresh-generation timers remain) and
installs a fresh audio identity so any foreign-generation callback is a
guaranteed highlight no-op via the identity check; pause cancels every
pending callback outright; session end cancels nothing but nulls the audio
identity, so every stale callback fails the guard; a page change cancels
nothing and does not defeat the guard — a pending callback still fires and
passes the identity check — but because the page change cleared the tracked
highlight set, its firing leaves the highlight state unchanged.  In all four
cases a callback firing after the event cannot change the highlight state. -/
theorem cancellation_total_amended :
    (∀ (s : ReaderState) (wc : Nat) (t : TimerCb),
      t ∈ (playAudio s wc).wordHighlightTimeouts → t.gen = s.audioSeq + 1)
    ∧ (∀ (s : ReaderState) (wc : Nat) (t : TimerCb), t.gen ≠ s.audioSeq + 1 →
      highlightView (fireTimer (playAudio s wc) t) = highlightView (playAudio s wc))
    ∧ (∀ s : ReaderState, (pauseReading s).wordHighlightTimeouts = [])
    ∧ (∀ (s : ReaderState) (t : TimerCb),
      highlightView (fireTimer (goHome s) t) = highlightView (goHome s))
    ∧ (∀ (s : ReaderState) (t : TimerCb),
      (∀ i ∈ s.sentenceHL, i ∈ s.currentHighlightedSpans) →
      (∀ i ∈ s.wordHL, i ∈ s.currentHighlightedSpans) →
      highlightView (fireTimer (pageChangeRender s) t) = highlightView (pageChangeRender s)) := by
  refine ⟨?_, ?_, fun s => rfl, ?_, ?_⟩
  · intro s wc t ht
    rw [playAudio] at ht
    simp only [List.mem_map, List.mem_range] at ht
    obtain ⟨i, -, rfl⟩ := ht
    rfl
  · intro s wc t hgen
    rw [fireTimer]
    split_ifs with h1 h2
    · rw [playAudio_currentAudio] at h2
      exact absurd (Option.some.inj h2).symm hgen
    · rfl
    · rfl
  · intro s t
    rw [fireTimer]
    split_ifs with h1 h2
    · rw [goHome_currentAudio] at h2
      exact absurd h2 (by simp)
    · rfl
    · rfl
  · intro s t hs hw
    have hsent : (pageChangeRender s).sentenceHL = [] := by
      rw [pageChangeRender, clearHighlightsR]
      simp only
      rw [List.filter_eq_nil_iff]
      intro a ha
      simp [hs a ha]
    have hword : (pageChangeRender s).wordHL = [] := by
      rw [pageChangeRender, clearHighlightsR]
      simp only
      rw [List.filter_eq_nil_iff]
      intro a ha
      simp [hw a ha]
    rw [fireTimer]
    split_ifs with h1 h2
    · simp [highlightCurrentWordR, highlightView, hsent, hword]
    · rfl
    · rfl

/-- Claim C5 counterexample: after a page change, none of the three pending
word callbacks of the current sentence has been cancelled, and the identity
check `state.currentAudio === audio` PASSES for them — cancellation is not
total and the no-op is not enforced by the identity/generation check (it only
happens because the highlight set was cleared). -/
theorem cancellation_total_counterexample :
    (pageChangeRender (playAudio ⟨[], none, 0, [5], [], [5]⟩ 3)).wordHighlightTimeouts
      = [⟨1, 0⟩, ⟨1, 1⟩, ⟨1, 2⟩]
    ∧ (pageChangeRender (playAudio ⟨[], none, 0, [5], [], [5]⟩ 3)).currentAudio
      = some (⟨1, 1⟩ : TimerCb).gen := by decide

/-- Witness for C5's amended theorem at a concrete state. -/
theorem cancellation_total_witness :
    highlightView (fireTimer (pageChangeRender ⟨[⟨1, 0⟩], some 1, 1, [4], [4], [4]⟩) ⟨1, 0⟩)
      = highlightView (pageChangeRender ⟨[⟨1, 0⟩], some 1, 1, [4], [4], [4]⟩) :=
  cancellation_total_amended.2.2.2.2 ⟨[⟨1, 0⟩], some 1, 1, [4], [4], [4]⟩ ⟨1, 0⟩
    (by decide) (by decide)

/-! ### Claim C6: word-progress scheduling (src/static/js/reading_chat.js:165-177) -/

/-- One scheduled `setTimeout`: its delay in milliseconds and the word index
its callback passes to the word-highlight operation. -/
structure SchedEntry where
  delayMs : ℚ
  index : Nat
deriving DecidableEq, Repr

/-- `scheduleWordHighlights(duration)`: split the SENTENCE STRING on
whitespace (`sentence.split(/\s+/).filter(w => w.length > 0)`), compute
`timePerWord = duration / Math.max(1, words.length)` and schedule one callback
per word at `timePerWord * index * 1000` milliseconds. -/
def scheduleWordHighlights (sentence : List Nat) (duration : ℚ) : List SchedEntry :=
  (List.range (splitWs sentence).length).map fun (index : Nat) =>
    ⟨duration / ((max 1 (splitWs sentence).length : Nat) : ℚ) * (index : ℚ) * 1000, index⟩

/-- Claim C6 (amended): for a sentence with `N = |split(/\s+/)|` words — the
word count comes from the SPOKEN SENTENCE STRING, not from the matched token
range — exactly `N` callbacks are scheduled, the `k`-th at
`k · duration/max(1,N) · 1000` ms carrying word index `k` (indices 0..N-1 in
increasing order), consecutive callbacks spaced `duration/max(1,N)` apart. -/
theorem scheduleWordHighlights_spec (sentence : List Nat) (duration : ℚ) :
    (scheduleWordHighlights sentence duration).length = (splitWs sentence).length
    ∧ (∀ k, k < (splitWs sentence).length →
      (scheduleWordHighlights sentence duration)[k]?
        = some ⟨duration / ((max 1 (splitWs sentence).length : Nat) : ℚ) * k * 1000, k⟩)
    ∧ (∀ k, k + 1 < (splitWs sentence).length →
      ((scheduleWordHighlights sentence duration).getD (k + 1) ⟨0, 0⟩).delayMs
        - ((scheduleWordHighlights sentence duration).getD k ⟨0, 0⟩).delayMs
        = duration / ((max 1 (splitWs sentence).length : Nat) : ℚ) * 1000) := by
  have hget : ∀ k, k < (splitWs sentence).length →
      (scheduleWordHighlights sentence duration)[k]?
        = some ⟨duration / ((max 1 (splitWs sentence).length : Nat) : ℚ) * k * 1000, k⟩ := by
    intro k hk
    rw [scheduleWordHighlights, List.getElem?_map, List.getElem?_range hk]
    rfl
  refine ⟨by simp [scheduleWordHighlights], hget, ?_⟩
  intro k hk
  rw [List.getD_eq_getElem?_getD, List.getD_eq_getElem?_getD,
    hget (k + 1) hk, hget k (by omega)]
  simp only [Option.getD_some]
  push_cast
  ring

/-- The hyphen-split page used by the C6 counterexample. -/
def c6Toks : List (List Nat) :=
  [strNats "inter-", strNats "national", strNats "cooperation"]

/-- The spoken sentence matching all three tokens of `c6Toks`. -/
def c6Sentence : List Nat := strNats "international cooperation"

/-- Claim C6 counterexample: the matched range holds 3 non-whitespace tokens
("inter-", "national", "cooperation"), but the scheduler splits the sentence
string and schedules only 2 callbacks — wordCount is not "the number of
non-whitespace tokens in the matched range". -/
theorem scheduleWordHighlights_counterexample :
    (highlightIndices c6Toks c6Sentence).length = 3
    ∧ (∀ t ∈ c6Toks, t.any fun c => !(isWsN c))
    ∧ (scheduleWordHighlights c6Sentence 2).length = 2 := by
  refine ⟨by decide, by decide, ?_⟩
  rw [scheduleWordHighlights, List.length_map, List.length_range]
  decide

/-- Witness for C6's amended theorem at a concrete input. -/
theorem scheduleWordHighlights_witness :
    (scheduleWordHighlights (strNats "two words") 4)[1]?
      = some ⟨4 / ((max 1 (splitWs (strNats "two words")).length : Nat) : ℚ) * 1 * 1000, 1⟩ :=
  (scheduleWordHighlights_spec (strNats "two words") 4).2.1 1 (by decide)

/-! ### Claims C9 and C10: the Highlight State Manager
(src/static/js/textHighlight.js:428-586) -/

/-- One `.text-token` span of the rendered text layer: its DOM identity, its
text, the PDF coordinates stamped on its parent `.text-item`, and the two
emphasis classes. -/
structure TokenSpan where
  id : Nat
  text : List Nat
  pdfX : Int
  pdfY : Int
  hl : Bool
  wmark : Bool
deriving DecidableEq, Repr

/-- The coordinate comparator of `highlightCurrentWordInSentence` (same shape
as the `highlightSentence` sort; the DOM-order tie-break inside one text-item
is delegated to the stability of the sort). -/
def compareSpans (a b : TokenSpan) : Int :=
  let dy := b.pdfY - a.pdfY
  if LINE_Y_PT < |dy| then -dy else a.pdfX - b.pdfX

/-- Sort order induced by the comparator. -/
def spanLe (a b : TokenSpan) : Prop := compareSpans a b ≤ 0

instance : DecidableRel spanLe :=
  fun a b => inferInstanceAs (Decidable (compareSpans a b ≤ 0))

/-- `t.trim() && /\S/.test(t)`: the span's text has a non-whitespace char. -/
def hasWordChar (t : List Nat) : Bool := t.any fun c => !(isWsN c)

/-- `highlightCurrentWordInSentence(sentenceText, wordIndex)`: remove every
`.highlight-word` mark, return early on a null sentence or negative index,
then walk the coordinate-sorted `.highlight` spans counting non-whitespace
ones and mark the `wordIndex`-th (none: silent no-op). -/
def highlightCurrentWordInSentence (spans : List TokenSpan) (sentenceText : List Nat)
    (wordIndex : Int) : List TokenSpan :=
  let cleared := spans.map fun s => { s with wmark := false }
  if sentenceText = [] ∨ wordIndex < 0 then cleared
  else
    let ws := (List.insertionSort spanLe (cleared.filter fun s => s.hl)).filter
      fun s => hasWordChar s.text
    match ws[wordIndex.toNat]? with
    | some target =>
      cleared.map fun s => if s.id = target.id then { s with wmark := true } else s
    | none => cleared

/-- `highlightWord(wordText)`: remove every `.highlight-word` mark, then mark
EVERY token whose lowercased trimmed text equals or contains the word. -/
def highlightWord (spans : List TokenSpan) (wordText : List Nat) : List TokenSpan :=
  let cleared := spans.map fun s => { s with wmark := false }
  if wordText = [] then cleared
  else
    let wordLower := trimN (List.map lowerN wordText)
    cleared.map fun s =>
      let t := trimN (List.map lowerN s.text)
      if t = wordLower ∨ (firstOccur t wordLower).isSome then { s with wmark := true }
      else s

/-- Number of spans carrying word-level emphasis. -/
def countWordMarks (spans : List TokenSpan) : Nat :=
  (spans.filter fun s => s.wmark).length

theorem countWordMarks_cleared (spans : List TokenSpan) :
    countWordMarks (spans.map fun s => { s with wmark := false }) = 0 := by
  induction spans with
  | nil => rfl
  | cons s l ih =>
    have h : countWordMarks ((s :: l).map fun u => { u with wmark := false })
        = countWordMarks (l.map fun u => { u with wmark := false }) := by
      simp [countWordMarks, List.filter]
    rw [h, ih]

theorem countWordMarks_markById (cleared : List TokenSpan) (tid : Nat)
    (hc : ∀ s ∈ cleared, s.wmark = false) :
    countWordMarks (cleared.map fun s =>
        if s.id = tid then { s with wmark := true } else s)
      = (cleared.filter fun s => s.id == tid).length := by
  induction cleared with
  | nil => rfl
  | cons s l ih =>
    have hs := hc s (List.mem_cons_self _ _)
    have hl' : ∀ u ∈ l, u.wmark = false := fun u hu => hc u (List.mem_cons_of_mem _ hu)
    by_cases h : s.id = tid
    · simp only [List.map_cons, if_pos h, countWordMarks, List.filter, h]
      simpa [countWordMarks] using ih hl'
    · simp only [List.map_cons, if_neg h, countWordMarks, List.filter, hs,
        show (s.id == tid) = false from by simpa using h]
      simpa [countWordMarks] using ih hl'

theorem filter_id_length_le_one (l : List TokenSpan) (tid : Nat)
    (h : (l.map TokenSpan.id).Nodup) :
    (l.filter fun s => s.id == tid).length ≤ 1 := by
  induction l with
  | nil => exact Nat.zero_le 1
  | cons s l ih =>
    rw [List.map_cons, List.nodup_cons] at h
    by_cases hid : s.id = tid
    · rw [List.filter, show (s.id == tid) = true from by simpa using hid]
      have hnone : (l.filter fun u => u.id == tid) = [] := by
        rw [List.filter_eq_nil_iff]
        intro u hu
        intro hbeq
        apply h.1
        rw [List.mem_map]
        exact ⟨u, hu, by have := of_decide_eq_true hbeq; omega⟩
      simp [hnone]
    · rw [List.filter, show (s.id == tid) = false from by simpa using hid]
      exact ih h.2

/-- Claim C9 (amended): after `highlightCurrentWordInSentence` — the word
highlighter the reading loop actually drives — at most one token carries
word-level emphasis, for every sentence and every index (out-of-range and
negative indices leave zero marks).  The invariant does NOT hold for the
legacy `highlightWord(wordText)` operation, which marks every token whose
text contains the word (see the counterexample). -/
theorem applyWord_at_most_one (spans : List TokenSpan) (sentenceText : List Nat)
    (wordIndex : Int) (hids : (spans.map TokenSpan.id).Nodup) :
    countWordMarks (highlightCurrentWordInSentence spans sentenceText wordIndex) ≤ 1 := by
  rw [highlightCurrentWordInSentence]
  have hc : ∀ s ∈ spans.map fun s => { s with wmark := false }, s.wmark = false := by
    intro s hs
    rw [List.mem_map] at hs
    obtain ⟨u, -, rfl⟩ := hs
    rfl
  have hcleared := countWordMarks_cleared spans
  split_ifs with h1
  · omega
  · cases hm : ((List.insertionSort spanLe
        ((spans.map fun s => { s with wmark := false }).filter fun s => s.hl)).filter
        fun s => hasWordChar s.text)[wordIndex.toNat]? with
    | none =>
      simp only [hm]
      omega
    | some target =>
      simp only [hm]
      rw [countWordMarks_markById _ target.id hc]
      apply filter_id_length_le_one
      have : ((spans.map fun s => { s with wmark := false }).map TokenSpan.id)
          = spans.map TokenSpan.id := by
        rw [List.map_map]
        rfl
      rw [this]
      exact hids

/-- Claim C9 counterexample: `highlightWord` with two distinct tokens that
both read "the" leaves TWO word-highlighted tokens, so "the set of tokens
carrying word-level emphasis has size at most one after every word-highlight
operation" fails for the `highlightWord` operation the claim includes. -/
theorem highlightWord_two_marks :
    countWordMarks (highlightWord
      [⟨0, strNats "the", 0, 0, false, false⟩, ⟨1, strNats "the", 5, 0, false, false⟩]
      (strNats "the")) = 2 := by decide

/-- Witness for C9's amended theorem at a concrete input. -/
theorem applyWord_at_most_one_witness :
    countWordMarks (highlightCurrentWordInSentence
      [⟨0, strNats "ab", 0, 0, true, false⟩, ⟨1, strNats "cd", 5, 0, true, true⟩]
      (strNats "ab cd") 1) ≤ 1 :=
  applyWord_at_most_one _ _ _ (by decide)

/-- The page's highlight state: the text-layer spans plus the tracked
`state.currentHighlightedSpans` list (by DOM identity). -/
structure HLState where
  spans : List TokenSpan
  currentHighlightedSpans : List Nat
deriving DecidableEq, Repr

/-- `clearHighlights()`: remove both classes from every tracked span and empty
the tracked list. -/
def clearHighlightsS (st : HLState) : HLState :=
  ⟨st.spans.map fun s =>
      if st.currentHighlightedSpans.contains s.id then { s with hl := false, wmark := false }
      else s,
    []⟩

/-- The token stream `highlightSentence` works on: text-layer spans in
coordinate-sorted order, whitespace-only tokens dropped. -/
def sortedWordSpans (spans : List TokenSpan) : List TokenSpan :=
  (List.insertionSort spanLe spans).filter fun s => hasWordChar s.text

/-- The DOM identities of the tokens selected by the matcher for a sentence,
on the cleared page (`indices.forEach(i => wordTokens[i] ...)`). -/
def selIds (st : HLState) (sentenceText : List Nat) : List Nat :=
  (highlightIndices ((sortedWordSpans (clearHighlightsS st).spans).map TokenSpan.text)
      sentenceText).filterMap
    fun i => ((sortedWordSpans (clearHighlightsS st).spans)[i]?).map TokenSpan.id

/-- `highlightSentence(sentenceText)` as a state transformer: clear previous
highlights FIRST, then bail out on a null/empty sentence, an empty token
layer, or a failed match; on success mark the selected tokens and track them. -/
def highlightSentenceS (st : HLState) (sentenceText : List Nat) : HLState :=
  if sentenceText = [] then clearHighlightsS st
  else if sortedWordSpans (clearHighlightsS st).spans = [] then clearHighlightsS st
  else if highlightIndices ((sortedWordSpans (clearHighlightsS st).spans).map TokenSpan.text)
      sentenceText = [] then clearHighlightsS st
  else
    ⟨(clearHighlightsS st).spans.map fun s =>
        if (selIds st sentenceText).contains s.id then { s with hl := true } else s,
      selIds st sentenceText⟩

/-- Claim C10: every call to `highlightSentence` first clears all previously
applied emphasis on the tracked set (assuming the invariant that every
emphasized span is tracked, which every operation preserves), so after any
failing call — null/empty sentence, empty token layer, or no
containment/ladder/anchor match — the sentence-highlighted set is empty and
no span carries any emphasis: the old highlights never survive a failed
apply.  On success the invariant is re-established for the new tracked set. -/
theorem highlightSentence_clears_first (st : HLState) (sentenceText : List Nat)
    (hinv : ∀ s ∈ st.spans, (s.hl = true ∨ s.wmark = true) →
      s.id ∈ st.currentHighlightedSpans) :
    (∀ s ∈ (clearHighlightsS st).spans, s.hl = false ∧ s.wmark = false)
    ∧ (∀ s ∈ (highlightSentenceS st sentenceText).spans, (s.hl = true ∨ s.wmark = true) →
        s.id ∈ (highlightSentenceS st sentenceText).currentHighlightedSpans)
    ∧ ((sentenceText = []
        ∨ sortedWordSpans (clearHighlightsS st).spans = []
        ∨ highlightIndices ((sortedWordSpans (clearHighlightsS st).spans).map TokenSpan.text)
            sentenceText = []) →
      (highlightSentenceS st sentenceText).currentHighlightedSpans = []
      ∧ ∀ s ∈ (highlightSentenceS st sentenceText).spans, s.hl = false ∧ s.wmark = false) := by
  have hclear : ∀ s ∈ (clearHighlightsS st).spans, s.hl = false ∧ s.wmark = false := by
    intro s hs
    rw [clearHighlightsS] at hs
    simp only [List.mem_map] at hs
    obtain ⟨u, hu, rfl⟩ := hs
    by_cases hmem : st.currentHighlightedSpans.contains u.id
    · rw [if_pos hmem]
      exact ⟨rfl, rfl⟩
    · rw [if_neg hmem]
      constructor
      · by_contra hhl
        rw [Bool.not_eq_false] at hhl
        exact hmem (List.elem_eq_true_of_mem (hinv u hu (Or.inl hhl)))
      · by_contra hwm
        rw [Bool.not_eq_false] at hwm
        exact hmem (List.elem_eq_true_of_mem (hinv u hu (Or.inr hwm)))
  refine ⟨hclear, ?_, ?_⟩
  · rw [highlightSentenceS]
    split_ifs with h1 h2 h3
    · intro s hs hflag
      rcases hclear s hs with ⟨ha, hb⟩
      rcases hflag with h | h <;> simp [h] at ha hb
    · intro s hs hflag
      rcases hclear s hs with ⟨ha, hb⟩
      rcases hflag with h | h <;> simp [h] at ha hb
    · intro s hs hflag
      rcases hclear s hs with ⟨ha, hb⟩
      rcases hflag with h | h <;> simp [h] at ha hb
    · intro s hs hflag
      simp only [List.mem_map] at hs
      obtain ⟨u, hu, rfl⟩ := hs
      by_cases hmem : (selIds st sentenceText).contains u.id
      · rw [if_pos hmem]
        simpa using hmem
      · rw [if_neg hmem] at hflag ⊢
        rcases hclear u hu with ⟨ha, hb⟩
        rcases hflag with h | h <;> simp [h] at ha hb
  · intro hfail
    rw [highlightSentenceS]
    rcases hfail with h | h | h
    · rw [if_pos h]
      exact ⟨rfl, hclear⟩
    · by_cases h1 : sentenceText = []
      · rw [if_pos h1]
        exact ⟨rfl, hclear⟩
      · rw [if_neg h1, if_pos h]
        exact ⟨rfl, hclear⟩
    · by_cases h1 : sentenceText = []
      · rw [if_pos h1]
        exact ⟨rfl, hclear⟩
      · rw [if_neg h1]
        by_cases h2 : sortedWordSpans (clearHighlightsS st).spans = []
        · rw [if_pos h2]
          exact ⟨rfl, hclear⟩
        · rw [if_neg h2, if_pos h]
          exact ⟨rfl, hclear⟩

/-- Witness for C10's theorem at a concrete input: a failed apply on a page
with one previously highlighted, tracked span leaves the tracked set empty. -/
theorem highlightSentence_clears_first_witness :
    (highlightSentenceS ⟨[⟨0, strNats "ab", 0, 0, true, false⟩], [0]⟩ []).currentHighlightedSpans
      = [] :=
  ((highlightSentence_clears_first ⟨[⟨0, strNats "ab", 0, 0, true, false⟩], [0]⟩ []
    (by decide)).2.2 (Or.inl rfl)).1
